import Mathlib

/-!
Verification development for the `aurelius` UTXO-blockchain core
(`corelib`: utxo.rs, transaction.rs, merkle.rs, block.rs, mempool.rs,
errors.rs), as a shallow embedding.

Modelling conventions:
* Rust machine integers (`u8/u32/u64/u128/usize`) are `Nat`; wrap-around
  is written explicitly as `% 2^w` exactly where the source wraps or
  truncates.
* `[u8; 32]` / `[u8; 64]` digests and Rust `String`s are byte lists
  (`List Nat`); a Rust `String` is its UTF-8 byte sequence.
* `HashMap` is an association list with `Nodup` keys, `BinaryHeap` is the
  list of its elements; `peek`/`pop` return a maximal element w.r.t. the
  source `Ord` (ties among `Ord`-equal elements, which `BinaryHeap` leaves
  unspecified, are resolved deterministically by first occurrence).
* The external crates blake3 and ed25519-dalek are abstracted as
  parameters (`Crypto`): the embedded code is parametric in the hash and
  signature functions, exactly as the source is parametric in the
  libraries' behaviour.
* Fallible Rust code returns `Except Error`; a Rust panic or a
  potentially diverging loop is modelled with an explicit `RunRes` /
  fuel discipline.
-/

namespace Aurelius

set_option maxRecDepth 16000

/-- Bytes of a fixed-width little-endian Rust integer (`to_le_bytes`). -/
def leEnc : Nat → Nat → List Nat
  | 0, _ => []
  | k + 1, n => (n % 256) :: leEnc k (n / 256)

/-- Read `k` little-endian bytes back into a number (borsh integer decode). -/
def leDec (k : Nat) (bs : List Nat) : Option (Nat × List Nat) :=
  match k, bs with
  | 0, bs => some (0, bs)
  | _ + 1, [] => none
  | k + 1, b :: bs =>
    match leDec k bs with
    | some (n, rest) => some (b + 256 * n, rest)
    | none => none

/-- Split off a fixed number of raw bytes (borsh fixed-size array decode). -/
def decTake (k : Nat) (bs : List Nat) : Option (List Nat × List Nat) :=
  if k ≤ bs.length then some (bs.take k, bs.drop k) else none

/-! ## Data model (corelib types) -/

/-- `corelib/src/errors.rs` `Error` (payloads dropped where irrelevant).
The variants `TxnExistInMempool` and `TxnLowFee` are used by
`mempool.rs` but their declaration is not under `src/`; they are
*modelled from the spec* §7 ("`TxnExistInMempool`, `TxnLowFee` — mempool
admission failures"). The spec's `InvalidBlock` variant has no
counterpart anywhere in the source. -/
inductive Error where
  | Network
  | Io
  | Protocol
  | OwnerMismatch
  | Signature
  | TimeError
  | InsufficientFunds
  | UnAuthorized
  | PendingUTXO
  | ConfirmedUTXO
  | InvalidUTXOValue
  | InvalidUnlockingScript
  | InvalidU8Length (n : Nat)
  | EmptyStack
  | HexcodeError
  | TxnExistInMempool
  | TxnLowFee
  deriving DecidableEq, Repr

instance exceptDecEq {ε α : Type} [DecidableEq ε] [DecidableEq α] :
    DecidableEq (Except ε α) := fun x y =>
  match x, y with
  | .ok a, .ok b => decidable_of_iff (a = b) (by simp)
  | .error a, .error b => decidable_of_iff (a = b) (by simp)
  | .ok _, .error _ => isFalse (fun h => Except.noConfusion h)
  | .error _, .ok _ => isFalse (fun h => Except.noConfusion h)

/-- `corelib/src/utxo.rs` `enum UTXO` (variant order as declared:
`Pending` then `Confirmed`). -/
inductive UTXO where
  | Pending (value : Nat) (index : Nat)
  | Confirmed (id : List Nat) (script_pubkey : List Nat) (value : Nat)
      (txn_hash : List Nat) (index : Nat) (created_at : Nat)
      (block_height : Nat) (is_coinbase : Bool)
  deriving DecidableEq, Repr

/-- `corelib/src/transaction.rs` `struct Transaction`.
Field widths as in the source: `timestamp` is a `u32`. -/
structure Transaction where
  hash_id : List Nat
  sender : List Nat
  receiver : List Nat
  timestamp : Nat
  signature : List Nat
  inputs : Option (List UTXO)
  outputs : Option (List UTXO)
  deriving DecidableEq, Repr

/-- `corelib/src/merkle.rs`: `Option<Node>` / `Option<Box<Node>>` fused
into one inductive; `nil` is `None` and `node h l r` is
`Some(Node { hash := h, left := l, right := r })`. `Tree` is the root. -/
inductive NTree where
  | nil
  | node (hash : List Nat) (left right : NTree)
  deriving DecidableEq, Repr

/-- `corelib/src/block.rs` `struct Block`; `merkle_root` is the tree's
root option (`Tree { root }`). -/
structure Block where
  index : Nat
  timestamp : Nat
  transactions : List Transaction
  nonce : Nat
  previous_hash : List Nat
  hash : List Nat
  difficulty : Nat
  merkle_root : NTree
  deriving DecidableEq, Repr

/-- `corelib/src/mempool.rs` `struct PriorityEntry`. -/
structure PriorityEntry where
  fee_per_byte : Nat
  timestamp : Nat
  size : Nat
  txn_hash : List Nat
  deriving DecidableEq, Repr

/-- `corelib/src/mempool.rs` `struct MemPool`; the `HashMap` is its
key/value pair list (keys distinct), the `BinaryHeap` its element list. -/
structure MemPool where
  transactions : List (List Nat × Transaction)
  priority_queue : List PriorityEntry
  max_size : Nat
  deriving DecidableEq, Repr

/-! ## Canonical binary codec (borsh, as derived / hand-written in the
source: little-endian scalars, `u32` length prefixes on `Vec`/`String`,
one-byte discriminants on enums and `Option`, raw bytes for `[u8; N]`).
`usize` is encoded as a `u64`. Borsh's UTF-8 re-validation on `String`
decode is omitted: it always succeeds on bytes produced by the encoder. -/

def encBool (b : Bool) : List Nat := [if b then 1 else 0]

def decBool : List Nat → Option (Bool × List Nat)
  | 0 :: r => some (false, r)
  | 1 :: r => some (true, r)
  | _ => none

def encStr (s : List Nat) : List Nat := leEnc 4 s.length ++ s

def decStr (bs : List Nat) : Option (List Nat × List Nat) :=
  match leDec 4 bs with
  | some (n, r) => decTake n r
  | none => none

def encVec (f : α → List Nat) (l : List α) : List Nat :=
  leEnc 4 l.length ++ (l.map f).flatten

def decListN (f : List Nat → Option (α × List Nat)) :
    Nat → List Nat → Option (List α × List Nat)
  | 0, bs => some ([], bs)
  | n + 1, bs =>
    match f bs with
    | some (a, r) =>
      match decListN f n r with
      | some (l, r') => some (a :: l, r')
      | none => none
    | none => none

def decVec (f : List Nat → Option (α × List Nat)) (bs : List Nat) :
    Option (List α × List Nat) :=
  match leDec 4 bs with
  | some (n, r) => decListN f n r
  | none => none

def encOpt (f : α → List Nat) : Option α → List Nat
  | none => [0]
  | some a => 1 :: f a

def decOpt (f : List Nat → Option (α × List Nat)) :
    List Nat → Option (Option α × List Nat)
  | 0 :: r => some (none, r)
  | 1 :: r =>
    match f r with
    | some (a, r') => some (some a, r')
    | none => none
  | _ => none

def UTXO.borsh : UTXO → List Nat
  | .Pending v i => 0 :: (leEnc 8 v ++ leEnc 4 i)
  | .Confirmed id spk v th i ca bh cb =>
    1 :: (id ++ encStr spk ++ leEnc 8 v ++ th ++ leEnc 4 i ++ leEnc 4 ca ++
      leEnc 4 bh ++ encBool cb)

def decUTXO (bs : List Nat) : Option (UTXO × List Nat) :=
  match bs with
  | 0 :: r =>
    match leDec 8 r with
    | some (v, r1) =>
      match leDec 4 r1 with
      | some (i, r2) => some (.Pending v i, r2)
      | none => none
    | none => none
  | 1 :: r =>
    match decTake 32 r with
    | some (id, r1) =>
      match decStr r1 with
      | some (spk, r2) =>
        match leDec 8 r2 with
        | some (v, r3) =>
          match decTake 32 r3 with
          | some (th, r4) =>
            match leDec 4 r4 with
            | some (i, r5) =>
              match leDec 4 r5 with
              | some (ca, r6) =>
                match leDec 4 r6 with
                | some (bh, r7) =>
                  match decBool r7 with
                  | some (cb, r8) =>
                    some (.Confirmed id spk v th i ca bh cb, r8)
                  | none => none
                | none => none
              | none => none
            | none => none
          | none => none
        | none => none
      | none => none
    | none => none
  | _ => none

def Transaction.borsh (t : Transaction) : List Nat :=
  t.hash_id ++ t.sender ++ t.receiver ++ leEnc 4 t.timestamp ++
    t.signature ++ encOpt (encVec UTXO.borsh) t.inputs ++
    encOpt (encVec UTXO.borsh) t.outputs

def decTransaction (bs : List Nat) : Option (Transaction × List Nat) :=
  match decTake 32 bs with
  | some (h, r1) =>
    match decTake 32 r1 with
    | some (s, r2) =>
      match decTake 32 r2 with
      | some (rc, r3) =>
        match leDec 4 r3 with
        | some (ts, r4) =>
          match decTake 64 r4 with
          | some (sig, r5) =>
            match decOpt (decVec decUTXO) r5 with
            | some (ins, r6) =>
              match decOpt (decVec decUTXO) r6 with
              | some (outs, r7) => some (⟨h, s, rc, ts, sig, ins, outs⟩, r7)
              | none => none
            | none => none
          | none => none
        | none => none
      | none => none
    | none => none
  | none => none

def NTree.borsh : NTree → List Nat
  | .nil => [0]
  | .node h l r => 1 :: (h ++ l.borsh ++ r.borsh)

/-- Depth of a merkle node tree; a decoding-fuel lower bound. -/
def NTree.depth : NTree → Nat
  | .nil => 0
  | .node _ l r => 1 + max l.depth r.depth

def decNTree : Nat → List Nat → Option (NTree × List Nat)
  | _, 0 :: r => some (.nil, r)
  | fuel, 1 :: r =>
    match fuel with
    | 0 => none
    | fuel + 1 =>
      match decTake 32 r with
      | some (h, r1) =>
        match decNTree fuel r1 with
        | some (l, r2) =>
          match decNTree fuel r2 with
          | some (rt, r3) => some (.node h l rt, r3)
          | none => none
        | none => none
      | none => none
  | _, _ => none

def Block.borsh (b : Block) : List Nat :=
  leEnc 8 b.index ++ leEnc 16 b.timestamp ++
    encVec Transaction.borsh b.transactions ++ leEnc 8 b.nonce ++
    encStr b.previous_hash ++ b.hash ++ leEnc 4 b.difficulty ++
    b.merkle_root.borsh

def decBlock (bs : List Nat) : Option (Block × List Nat) :=
  match leDec 8 bs with
  | some (i, r1) =>
    match leDec 16 r1 with
    | some (ts, r2) =>
      match decVec decTransaction r2 with
      | some (txs, r3) =>
        match leDec 8 r3 with
        | some (nc, r4) =>
          match decStr r4 with
          | some (ph, r5) =>
            match decTake 32 r5 with
            | some (h, r6) =>
              match leDec 4 r6 with
              | some (d, r7) =>
                match decNTree r7.length r7 with
                | some (mt, r8) => some (⟨i, ts, txs, nc, ph, h, d, mt⟩, r8)
                | none => none
              | none => none
            | none => none
          | none => none
        | none => none
      | none => none
    | none => none
  | none => none

def PriorityEntry.borsh (e : PriorityEntry) : List Nat :=
  leEnc 8 e.fee_per_byte ++ leEnc 16 e.timestamp ++ leEnc 8 e.size ++
    e.txn_hash

def decPriorityEntry (bs : List Nat) : Option (PriorityEntry × List Nat) :=
  match leDec 8 bs with
  | some (f, r1) =>
    match leDec 16 r1 with
    | some (ts, r2) =>
      match leDec 8 r2 with
      | some (sz, r3) =>
        match decTake 32 r3 with
        | some (th, r4) => some (⟨f, ts, sz, th⟩, r4)
        | none => none
      | none => none
    | none => none
  | none => none

def encPair (kv : List Nat × Transaction) : List Nat :=
  kv.1 ++ Transaction.borsh kv.2

def decPair (bs : List Nat) : Option ((List Nat × Transaction) × List Nat) :=
  match decTake 32 bs with
  | some (k, r1) =>
    match decTransaction r1 with
    | some (t, r2) => some ((k, t), r2)
    | none => none
  | none => none

def MemPool.borsh (mp : MemPool) : List Nat :=
  leEnc 8 mp.max_size ++ encVec encPair mp.transactions ++
    encVec PriorityEntry.borsh mp.priority_queue

def decMemPool (bs : List Nat) : Option (MemPool × List Nat) :=
  match leDec 8 bs with
  | some (ms, r1) =>
    match decVec decPair r1 with
    | some (txs, r2) =>
      match decVec decPriorityEntry r2 with
      | some (pq, r3) => some (⟨txs, pq, ms⟩, r3)
      | none => none
    | none => none
  | none => none

/-- `borsh::from_slice` / `try_from_slice`: decode requiring the whole
input to be consumed. -/
def tryFromSlice (f : List Nat → Option (α × List Nat)) (bs : List Nat) :
    Option α :=
  match f bs with
  | some (a, []) => some a
  | _ => none

/-! ### Well-formedness: the image in the model of actual Rust values
(field widths respected, fixed arrays of the right length). -/

def wfUTXO : UTXO → Bool
  | .Pending v i => v < 2 ^ 64 && i < 2 ^ 32
  | .Confirmed id spk v th i ca bh _ =>
    id.length = 32 && spk.length < 2 ^ 32 && v < 2 ^ 64 && th.length = 32 &&
      i < 2 ^ 32 && ca < 2 ^ 32 && bh < 2 ^ 32

def wfOptVec (p : α → Bool) : Option (List α) → Bool
  | none => true
  | some l => l.length < 2 ^ 32 && l.all p

def wfTransaction (t : Transaction) : Bool :=
  t.hash_id.length = 32 && t.sender.length = 32 && t.receiver.length = 32 &&
    t.timestamp < 2 ^ 32 && t.signature.length = 64 &&
    wfOptVec wfUTXO t.inputs && wfOptVec wfUTXO t.outputs

def wfNTree : NTree → Bool
  | .nil => true
  | .node h l r => h.length = 32 && wfNTree l && wfNTree r

def wfBlock (b : Block) : Bool :=
  b.index < 2 ^ 64 && b.timestamp < 2 ^ 128 &&
    b.transactions.length < 2 ^ 32 && b.transactions.all wfTransaction &&
    b.nonce < 2 ^ 64 && b.previous_hash.length < 2 ^ 32 &&
    b.hash.length = 32 && b.difficulty < 2 ^ 32 && wfNTree b.merkle_root

def wfPriorityEntry (e : PriorityEntry) : Bool :=
  e.fee_per_byte < 2 ^ 64 && e.timestamp < 2 ^ 128 && e.size < 2 ^ 64 &&
    e.txn_hash.length = 32

def wfMemPool (mp : MemPool) : Bool :=
  mp.max_size < 2 ^ 64 && mp.transactions.length < 2 ^ 32 &&
    mp.transactions.all (fun kv => kv.1.length = 32 && wfTransaction kv.2) &&
    mp.priority_queue.length < 2 ^ 32 &&
    mp.priority_queue.all wfPriorityEntry

/-! ## External cryptographic primitives

blake3 and ed25519-dalek are external crates; the embedding is parametric
in their behaviour, exactly as the source is generic over what the
libraries compute. Signing keys are abstract (`Nat`). -/

structure Crypto where
  /-- `blake3::hash` (a 32-byte digest of a byte string). -/
  hash : List Nat → List Nat
  /-- `SigningKey::verifying_key().to_bytes()`. -/
  vkBytes : Nat → List Nat
  /-- `SignerMut::sign(msg).to_bytes()`. -/
  sign : Nat → List Nat → List Nat
  /-- `VerifyingKey::verify_strict(msg, sig).is_ok()` for the key with
  the given byte encoding. -/
  verify : List Nat → List Nat → List Nat → Bool
  /-- `VerifyingKey::from_bytes(bytes).is_ok()`. -/
  parseVk : List Nat → Bool

/-! ## UTXO and the script VM (`corelib/src/utxo.rs`) -/

/-- `UTXO::to_bytes` — `txn_hash` and `is_coinbase` are excluded, exactly
as in the source. -/
def UTXO.to_bytes : UTXO → List Nat
  | .Confirmed id spk v _ i ca bh _ =>
    id ++ spk ++ leEnc 8 v ++ leEnc 4 i ++ leEnc 4 ca ++ leEnc 4 bh
  | .Pending v i => leEnc 8 v ++ leEnc 4 i

def UTXO.isPending : UTXO → Bool
  | .Pending _ _ => true
  | .Confirmed _ _ _ _ _ _ _ _ => false

def UTXO.isConfirmed : UTXO → Bool
  | .Pending _ _ => false
  | .Confirmed _ _ _ _ _ _ _ _ => true

/-- ASCII whitespace. The source splits with `str::split_whitespace`
(Unicode `char::is_whitespace`); on byte lists the model covers the ASCII
whitespace set, which coincides on every ASCII script (the only scripts
the source ever produces). -/
def isWS (b : Nat) : Bool :=
  b = 32 || b = 9 || b = 10 || b = 11 || b = 12 || b = 13

def splitWSAux : List Nat → List Nat → List (List Nat)
  | [], cur => if cur.isEmpty then [] else [cur.reverse]
  | b :: rest, cur =>
    if isWS b then
      if cur.isEmpty then splitWSAux rest []
      else cur.reverse :: splitWSAux rest []
    else splitWSAux rest (b :: cur)

/-- `str::split_whitespace` (empty tokens dropped). -/
def splitWS (s : List Nat) : List (List Nat) := splitWSAux s []

/-- The UTF-8 bytes of `"OP_CHECKSIG"`. -/
def opCHECKSIG : List Nat := [79, 80, 95, 67, 72, 69, 67, 75, 83, 73, 71]

/-- The UTF-8 bytes of `"true"`. -/
def trueTok : List Nat := [116, 114, 117, 101]

/-- The `OP_CHECKSIG` body of `UTXO::unlock` (hex-decoding the two popped
tokens, comparing the pubkey hash, ed25519-verifying) abstracted as an
oracle: `none` means the checks passed (and `"true"` is pushed), `some e`
the error the body returns (`HexcodeError` on bad hex,
`InvalidUnlockingScript` on hash mismatch or bad signature). Arguments in
pop order: public_key_hash, public_key_hex, signature_hex. -/
abbrev CsigOracle := List Nat → List Nat → List Nat → Option Error

/-- The `script_pubkey` scan loop of `UTXO::unlock`. The stack is a list
with its head on top; any token other than `OP_CHECKSIG` is pushed. -/
def processTokens (csig : CsigOracle) :
    List (List Nat) → List (List Nat) → Except Error (List (List Nat))
  | [], st => .ok st
  | tok :: rest, st =>
    if tok = opCHECKSIG then
      match st with
      | pkh :: pk :: sg :: st' =>
        match csig pkh pk sg with
        | some e => .error e
        | none => processTokens csig rest (trueTok :: st')
      | _ => .error .InvalidUnlockingScript
    else processTokens csig rest (tok :: st)

/-- `UTXO::unlock`. The unlocking script's tokens are pushed (in order)
before the `script_pubkey` is scanned, so the initial stack is their
reverse; evaluation succeeds iff the final stack is exactly
`["true"]`. -/
def UTXO.unlock (csig : CsigOracle) (u : UTXO)
    (unlocking_script : List Nat) : Except Error Unit :=
  match u with
  | .Pending _ _ => .error .PendingUTXO
  | .Confirmed _ spk _ _ _ _ _ _ =>
    match processTokens csig (splitWS spk) (splitWS unlocking_script).reverse with
    | .ok [x] => if x = trueTok then .ok () else .error .InvalidUnlockingScript
    | .ok _ => .error .InvalidUnlockingScript
    | .error e => .error e

/-! ## Transaction (`corelib/src/transaction.rs`) -/

/-- The byte string hashed by `Transaction::calculate_hash`:
`sender ‖ receiver ‖ timestamp_le ‖ Σ input.to_bytes() ‖ Σ output.to_bytes()`
(absent input/output vectors contribute nothing). -/
def Transaction.body (t : Transaction) : List Nat :=
  t.sender ++ t.receiver ++ leEnc 4 t.timestamp ++
    ((t.inputs.getD []).map UTXO.to_bytes).flatten ++
    ((t.outputs.getD []).map UTXO.to_bytes).flatten

/-- `Transaction::calculate_hash`: re-derive `hash_id` and re-sign it with
the signing key passed by the caller. -/
def Transaction.calculate_hash (C : Crypto) (sk : Nat) (t : Transaction) :
    Transaction :=
  let h := C.hash t.body
  { t with hash_id := h, signature := C.sign sk h }

/-- `Transaction::new`; `now` is the wall-clock reading
`SystemTime::now().duration_since(UNIX_EPOCH)?.as_millis()` (a `u128`),
which the source truncates with `as u32`. -/
def Transaction.new (C : Crypto) (sk : Nat) (receiver : List Nat)
    (now : Nat) : Transaction :=
  Transaction.calculate_hash C sk
    { hash_id := List.replicate 32 0
      sender := C.vkBytes sk
      receiver := receiver
      timestamp := now % 2 ^ 32
      signature := List.replicate 64 0
      inputs := none
      outputs := none }

/-- `Transaction::add_inputs`. -/
def Transaction.add_inputs (C : Crypto) (t : Transaction)
    (new_inputs : List UTXO) (sk : Nat) : Except Error Transaction :=
  if new_inputs.any UTXO.isPending then .error .PendingUTXO
  else if new_inputs.isEmpty then .error .InsufficientFunds
  else .ok (Transaction.calculate_hash C sk
    { t with inputs := some (t.inputs.getD [] ++ new_inputs) })

/-- `Transaction::add_outputs`. -/
def Transaction.add_outputs (C : Crypto) (t : Transaction)
    (new_outputs : List UTXO) (sk : Nat) : Except Error Transaction :=
  if new_outputs.any UTXO.isConfirmed then .error .ConfirmedUTXO
  else if new_outputs.isEmpty then .error .InsufficientFunds
  else .ok (Transaction.calculate_hash C sk
    { t with outputs := some (t.outputs.getD [] ++ new_outputs) })

/-- Input values, failing on the first `Pending` input (the
`collect::<Result<Vec<u64>>>` of `Transaction::verify`). -/
def confirmedValues : List UTXO → Except Error (List Nat)
  | [] => .ok []
  | .Confirmed _ _ v _ _ _ _ _ :: rest =>
    match confirmedValues rest with
    | .ok vs => .ok (v :: vs)
    | .error e => .error e
  | .Pending _ _ :: _ => .error .PendingUTXO

/-- Output values, failing on the first `Confirmed` output. -/
def pendingValues : List UTXO → Except Error (List Nat)
  | [] => .ok []
  | .Pending v _ :: rest =>
    match pendingValues rest with
    | .ok vs => .ok (v :: vs)
    | .error e => .error e
  | .Confirmed _ _ _ _ _ _ _ _ :: _ => .error .ConfirmedUTXO

/-- `Iterator::sum::<u64>` with the wrap-around of `u64` addition made
explicit. -/
def u64sum (l : List Nat) : Nat := l.foldl (fun a v => (a + v) % 2 ^ 64) 0

/-- The `for utxo in inputs { utxo.unlock(...)? }` loop of
`Transaction::verify`. -/
def unlockAll (csig : CsigOracle) : List UTXO → List Nat → Except Error Unit
  | [], _ => .ok ()
  | u :: rest, us =>
    match u.unlock csig us with
    | .ok _ => unlockAll csig rest us
    | .error e => .error e

/-- `Transaction::verify`. -/
def Transaction.verify (C : Crypto) (csig : CsigOracle) (t : Transaction)
    (unlocking_script : List Nat) : Except Error (Nat × Nat × Nat) :=
  if ¬ C.parseVk t.sender then .error .Signature
  else
    match t.inputs with
    | none => .error .InsufficientFunds
    | some inputs =>
      match t.outputs with
      | none => .error .InsufficientFunds
      | some outputs =>
        match confirmedValues inputs with
        | .error e => .error e
        | .ok ivs =>
          match pendingValues outputs with
          | .error e => .error e
          | .ok ovs =>
            let input := u64sum ivs
            let output := u64sum ovs
            if output > input then .error .InsufficientFunds
            else
              let fee := input - output
              match unlockAll csig inputs unlocking_script with
              | .error e => .error e
              | .ok _ =>
                if C.verify t.sender t.hash_id t.signature then
                  .ok (input, output, fee)
                else .error .UnAuthorized

/-- Modelled from the spec: `Transaction::size` is called by
`MemPool::add_transaction` (mempool.rs line 97) but is not defined
anywhere under `src/`; per the spec (§4.5 "`size = serialized_size(tx)`",
§6 canonical binary codec) it is the length of the canonical borsh
serialization. -/
def Transaction.size (t : Transaction) : Nat := t.borsh.length

/-! ## Merkle tree (`corelib/src/merkle.rs`) and Block
(`corelib/src/block.rs`) -/

def nodeHash : NTree → List Nat
  | .nil => []
  | .node h _ _ => h

/-- `Node::from_children`: hash of the concatenated child hashes. -/
def Node.from_children (C : Crypto) (l r : NTree) : NTree :=
  .node (C.hash (nodeHash l ++ nodeHash r)) l r

/-- `Tree::build` (the recursive `split_at(len / 2)` construction); its
`None` result is `nil`. -/
def Tree.build (C : Crypto) : List NTree → NTree
  | [] => .nil
  | [n] => n
  | [a, b] => Node.from_children C a b
  | a :: b :: c :: rest =>
    Node.from_children C
      (Tree.build C ((a :: b :: c :: rest).take ((a :: b :: c :: rest).length / 2)))
      (Tree.build C ((a :: b :: c :: rest).drop ((a :: b :: c :: rest).length / 2)))
termination_by l => l.length
decreasing_by
  all_goals simp [List.length_take, List.length_drop]
  all_goals omega

/-- `Tree::with_hashes`: leaves are childless nodes carrying the given
hashes. -/
def Tree.with_hashes (C : Crypto) (hashes : List (List Nat)) : NTree :=
  Tree.build C (hashes.map (fun h => .node h .nil .nil))

/-- `Tree::root_hash`. -/
def rootHash : NTree → Option (List Nat)
  | .nil => none
  | .node h _ _ => some h

/-- `Block::calculate_hash`. `none` models the panic of the
`self.merkle_root.root_hash().unwrap()` on an empty merkle tree (the
source's own `// TODO: handle empty transaction blocks`). -/
def Block.calculate_hash (C : Crypto) (b : Block) : Option (List Nat) :=
  match rootHash b.merkle_root with
  | none => none
  | some mr =>
    some (C.hash (leEnc 8 b.index ++ leEnc 16 b.timestamp ++
      (b.transactions.map (·.hash_id)).flatten ++ leEnc 8 b.nonce ++
      b.previous_hash ++ mr))

/-- `u128::from_be_bytes(hash[..16])`. -/
def hashPrefixU128 (h : List Nat) : Nat :=
  (h.take 16).foldl (fun a b => a * 256 + b) 0

def u128MAX : Nat := 2 ^ 128 - 1

/-- `Block::is_valid`: the stored hash's 16-byte big-endian prefix meets
`u128::MAX >> difficulty`. Nothing else is checked. -/
def Block.is_valid (b : Block) : Bool :=
  hashPrefixU128 b.hash ≤ u128MAX >>> b.difficulty

/-- Result of running code that may panic or loop: `panic` models a Rust
panic, `timeout` fuel exhaustion of an unbounded loop. -/
inductive RunRes (α : Type) where
  | panic
  | timeout
  | ok (a : α)
  deriving DecidableEq, Repr

/-- `Block::mine_block`: recompute the hash until the target is met,
incrementing `nonce` with `wrapping_add(1)`. The hash is recomputed
before the fuel is consulted, exactly as the loop body runs before any
exit. -/
def mineLoop (C : Crypto) (fuel : Nat) (b : Block) : RunRes Block :=
  match Block.calculate_hash C b with
  | none => .panic
  | some h =>
    if hashPrefixU128 h ≤ u128MAX >>> b.difficulty then
      .ok { b with hash := h }
    else
      match fuel with
      | 0 => .timeout
      | fuel + 1 =>
        mineLoop C fuel { b with hash := h, nonce := (b.nonce + 1) % 2 ^ 64 }

/-- `Block::new`: timestamp, merkle tree over the transaction ids,
`nonce = 0`, zero hash, then the mining loop. It never returns an error:
its only early exits are panics. -/
def Block.new (C : Crypto) (fuel : Nat) (index : Nat)
    (transactions : List Transaction) (previous_hash : List Nat)
    (difficulty : Nat) (now : Nat) : RunRes Block :=
  mineLoop C fuel
    { index := index
      timestamp := now
      transactions := transactions
      nonce := 0
      previous_hash := previous_hash
      hash := List.replicate 32 0
      difficulty := difficulty
      merkle_root := Tree.with_hashes C (transactions.map (·.hash_id)) }

/-! ## Mempool (`corelib/src/mempool.rs`) -/

/-- `Ord for PriorityEntry`: `other.fee_per_byte.cmp(&self.fee_per_byte)
.then_with(|| self.timestamp.cmp(&other.timestamp))` — fee descending,
ties by timestamp ascending, so the `Ord`-greatest entry has the
*smallest* fee (newest timestamp among equal fees). -/
def peCmp (a b : PriorityEntry) : Ordering :=
  (compare b.fee_per_byte a.fee_per_byte).then (compare a.timestamp b.timestamp)

/-- One step of the maximum scan underlying `heapPeek`. -/
def peekStep (acc : Option PriorityEntry) (e : PriorityEntry) :
    Option PriorityEntry :=
  match acc with
  | none => some e
  | some m => if peCmp e m = .gt then some e else some m

/-- `BinaryHeap::peek`: an `Ord`-maximal element (the source heap leaves
ties among `Ord`-equal entries unspecified; the model keeps the first). -/
def heapPeek (l : List PriorityEntry) : Option PriorityEntry :=
  l.foldl peekStep none

/-- `BinaryHeap::pop`: remove the peeked element. -/
def heapPop (l : List PriorityEntry) : List PriorityEntry :=
  match heapPeek l with
  | none => l
  | some m => l.erase m

/-- `HashMap::get`. -/
def mapGet (m : List (List Nat × Transaction)) (k : List Nat) :
    Option Transaction :=
  match m with
  | [] => none
  | (k', v) :: rest => if k' = k then some v else mapGet rest k

/-- `HashMap::insert` (replace an existing key, else add). -/
def mapInsert (m : List (List Nat × Transaction)) (k : List Nat)
    (v : Transaction) : List (List Nat × Transaction) :=
  if (mapGet m k).isSome then
    m.map (fun kv => if kv.1 = k then (k, v) else kv)
  else m ++ [(k, v)]

/-- `MemPool::new`. -/
def MemPool.new (max_size : Nat) : MemPool := ⟨[], [], max_size⟩

/-- `MemPool::remove_transaction`: rebuild the heap without the hash and
remove it from the map. -/
def MemPool.remove_transaction (mp : MemPool) (tx_hash : List Nat) :
    MemPool × Option Transaction :=
  ({ mp with
      priority_queue := mp.priority_queue.filter (fun e => e.txn_hash ≠ tx_hash)
      transactions := mp.transactions.filter (fun kv => kv.1 ≠ tx_hash) },
    mapGet mp.transactions tx_hash)

/-- `MemPool::add_transaction`; `now` is the wall-clock millisecond
reading (`u128`). Returns the post-state together with the `Result`. -/
def MemPool.add_transaction (mp : MemPool) (txn : Transaction) (fee : Nat)
    (now : Nat) : MemPool × Except Error Unit :=
  if (mapGet mp.transactions txn.hash_id).isSome then
    (mp, .error .TxnExistInMempool)
  else
    let size := txn.size
    let entry : PriorityEntry :=
      ⟨fee / size, now, size, txn.hash_id⟩
    if mp.max_size ≤ mp.transactions.length then
      match heapPeek mp.priority_queue with
      | some lowest =>
        if lowest.fee_per_byte < entry.fee_per_byte then
          let mp1 := { mp with priority_queue := heapPop mp.priority_queue }
          let mp2 := (mp1.remove_transaction lowest.txn_hash).1
          ({ mp2 with
              transactions := mapInsert mp2.transactions txn.hash_id txn
              priority_queue := mp2.priority_queue ++ [entry] }, .ok ())
        else (mp, .error .TxnLowFee)
      | none =>
        ({ mp with
            transactions := mapInsert mp.transactions txn.hash_id txn
            priority_queue := mp.priority_queue ++ [entry] }, .ok ())
    else
      ({ mp with
          transactions := mapInsert mp.transactions txn.hash_id txn
          priority_queue := mp.priority_queue ++ [entry] }, .ok ())

/-- The `while let Some(entry) = self.priority_queue.peek()` loop of
`get_transactions_for_block`. Note that the branch that accepts a
transaction does not pop the peeked entry; the loop only terminates by
the size check (or by popping entries whose hash is gone). `fuel` bounds
the iterations of this potentially non-terminating loop. -/
def gtfbLoop (txs : List (List Nat × Transaction)) (maxbs : Nat) :
    Nat → List PriorityEntry → Nat → List Transaction →
      List Transaction × List PriorityEntry
  | 0, pq, _, acc => (acc, pq)
  | fuel + 1, pq, block_size, acc =>
    match heapPeek pq with
    | none => (acc, pq)
    | some entry =>
      if block_size + entry.size < maxbs then
        match mapGet txs entry.txn_hash with
        | some txn =>
          gtfbLoop txs maxbs fuel pq (block_size + entry.size) (acc ++ [txn])
        | none => gtfbLoop txs maxbs fuel (heapPop pq) block_size acc
      else (acc, pq)

/-- `MemPool::get_transactions_for_block`: run the selection loop, then
`remove_transaction` each collected transaction. Returns the post-state
and the returned vector. -/
def MemPool.get_transactions_for_block (mp : MemPool) (fuel : Nat)
    (max_block_size : Nat) : MemPool × List Transaction :=
  let res := gtfbLoop mp.transactions max_block_size fuel
    mp.priority_queue 0 []
  let mp1 := { mp with priority_queue := res.2 }
  (res.1.foldl (fun m t => (m.remove_transaction t.hash_id).1) mp1, res.1)

/-! ## Mempool state invariant and reachability -/

/-- The two structures of a `MemPool` agree: the map's keys are distinct
and are exactly (as a multiset) the hashes in the heap; the map respects
the capacity whenever `max_size ≥ 1` (for `max_size = 0` the bound is
violated by the very first admission, see the `C8` counterexample). -/
def MemPoolInv (mp : MemPool) : Prop :=
  (mp.transactions.map Prod.fst).Nodup ∧
    ((mp.priority_queue.map PriorityEntry.txn_hash).Perm
      (mp.transactions.map Prod.fst)) ∧
    (1 ≤ mp.max_size → mp.transactions.length ≤ mp.max_size)

/-- Mempool states reachable from `MemPool::new` by any sequence of
`add_transaction`, `remove_transaction` and `get_transactions_for_block`
calls (with arbitrary arguments, timestamps and loop fuel). -/
inductive Reach : MemPool → Prop where
  | new (max_size : Nat) : Reach (MemPool.new max_size)
  | add (mp : MemPool) (txn : Transaction) (fee now : Nat) :
      Reach mp → Reach (mp.add_transaction txn fee now).1
  | remove (mp : MemPool) (h : List Nat) :
      Reach mp → Reach (mp.remove_transaction h).1
  | gtfb (mp : MemPool) (fuel maxbs : Nat) :
      Reach mp → Reach (mp.get_transactions_for_block fuel maxbs).1

/-! ## Concrete instances used by witnesses and counterexamples -/

/-- A toy instantiation of the crypto parameters in which signatures
carry the signing key's verifying bytes, so `verify` recognizes exactly
the signer's own key — the correctness property any signature scheme
provides. -/
def toyCrypto : Crypto where
  hash := fun l => List.replicate 31 0 ++ [l.length % 256]
  vkBytes := fun k => List.replicate 31 0 ++ [k % 256]
  sign := fun k m => (List.replicate 31 0 ++ [k % 256]) ++ m
  verify := fun pk m s => s == pk ++ m
  parseVk := fun _ => true

/-- A checksig oracle that always accepts. -/
def csigNone : CsigOracle := fun _ _ _ => none

def dig (b : Nat) : List Nat := List.replicate 32 b

/-- A minimal transaction carrying a given hash id. -/
def mkTxn (b : Nat) : Transaction :=
  ⟨dig b, [], [], 0, [], none, none⟩

/-- C1: a mempool holding one transaction whose priority entry has
size 1. -/
def mpC1 : MemPool := ⟨[(dig 7, mkTxn 7)], [⟨1, 0, 1, dig 7⟩], 5⟩

/-- C1: a mempool holding a high-fee transaction (fee_per_byte 10) and a
low-fee one (fee_per_byte 2), both of entry size 10. -/
def mpC1b : MemPool :=
  ⟨[(dig 7, mkTxn 7), (dig 8, mkTxn 8)],
    [⟨10, 0, 10, dig 7⟩, ⟨2, 0, 10, dig 8⟩], 5⟩

/-- C4: a mempool at capacity `max_size = 1` whose sole entry has
fee_per_byte 100. -/
def mpC4 : MemPool := ⟨[(dig 5, mkTxn 5)], [⟨100, 0, 1, dig 5⟩], 1⟩

/-- C5: a transaction created (and signed) by key 0. -/
def tC5 : Transaction := Transaction.new toyCrypto 0 (dig 9) 0

/-- C5: a confirmed UTXO used as an input. -/
def uC5 : UTXO := .Confirmed (dig 2) [] 5 (dig 3) 0 0 0 false

/-- C5: `tC5` after `add_inputs([uC5])` re-signed with the *different*
key 1. -/
def t1C5 : Transaction :=
  Transaction.calculate_hash toyCrypto 1 { tC5 with inputs := some [uC5] }

/-- C6: a transaction with confirmed inputs totalling 1_000_000_000 and
pending outputs totalling 999_999_990. An empty `script_pubkey` plus the
unlocking script `"true"` make `unlock` succeed without a checksig. -/
def tC6 : Transaction :=
  ⟨dig 1, [], [], 0, [],
    some [.Confirmed (dig 2) [] 1000000000 (dig 3) 0 0 0 false],
    some [.Pending 999999990 0]⟩

/-- A crypto instantiation whose signature verification accepts (used
where the claim assumes a verifying signature). -/
def okCrypto : Crypto where
  hash := fun l => List.replicate 31 0 ++ [l.length % 256]
  vkBytes := fun k => List.replicate 31 0 ++ [k % 256]
  sign := fun k m => (List.replicate 31 0 ++ [k % 256]) ++ m
  verify := fun _ _ _ => true
  parseVk := fun _ => true

/-- The value field of either UTXO variant. -/
def utxoValue : UTXO → Nat
  | .Pending v _ => v
  | .Confirmed _ _ v _ _ _ _ _ => v

/-- C3: a block whose stored hash is all zeroes (so the difficulty check
passes) but differs from its recomputed hash. -/
def bC3 : Block := ⟨0, 0, [mkTxn 1], 0, [], dig 0, 1, .node (dig 1) .nil .nil⟩

/-- C9 witness entities. -/
def uC9 : UTXO := .Pending 5 1

def tC9 : Transaction :=
  ⟨dig 1, dig 2, dig 3, 7, List.replicate 64 4, some [.Pending 5 1], none⟩

def bC9 : Block := ⟨1, 2, [], 3, [104, 105], dig 4, 5, .node (dig 6) .nil .nil⟩

def mpC9 : MemPool := ⟨[(dig 1, tC9)], [⟨1, 2, 3, dig 1⟩], 4⟩

/-! # Theorems

### Basic codec lemmas -/

theorem leEnc_length (k n : Nat) : (leEnc k n).length = k := by
  induction k generalizing n with
  | zero => rfl
  | succ k ih => simp [leEnc, ih]

theorem leDec_leEnc (k n : Nat) (rest : List Nat) :
    leDec k (leEnc k n ++ rest) = some (n % 2 ^ (8 * k), rest) := by
  induction k generalizing n with
  | zero => simp [leEnc, leDec, Nat.mod_one]
  | succ k ih =>
    simp only [leEnc, List.cons_append, leDec, List.append_eq, ih]
    congr 2
    have h1 : 2 ^ (8 * (k + 1)) = 256 * 2 ^ (8 * k) := by ring
    rw [h1, Nat.mod_mul]

theorem decTake_append (pre rest : List Nat) :
    decTake pre.length (pre ++ rest) = some (pre, rest) := by
  simp [decTake, Nat.le_add_right, List.take_append, List.drop_append]

/-! ### Codec round-trip lemmas -/

theorem leDec4_enc {n : Nat} (h : n < 2 ^ 32) (rest : List Nat) :
    leDec 4 (leEnc 4 n ++ rest) = some (n, rest) := by
  rw [leDec_leEnc, Nat.mod_eq_of_lt (by norm_num at h ⊢; omega)]

theorem leDec8_enc {n : Nat} (h : n < 2 ^ 64) (rest : List Nat) :
    leDec 8 (leEnc 8 n ++ rest) = some (n, rest) := by
  rw [leDec_leEnc, Nat.mod_eq_of_lt (by norm_num at h ⊢; omega)]

theorem leDec16_enc {n : Nat} (h : n < 2 ^ 128) (rest : List Nat) :
    leDec 16 (leEnc 16 n ++ rest) = some (n, rest) := by
  rw [leDec_leEnc, Nat.mod_eq_of_lt (by norm_num at h ⊢; omega)]

theorem decTake_of_length {k : Nat} (d : List Nat) (h : d.length = k)
    (rest : List Nat) : decTake k (d ++ rest) = some (d, rest) := by
  subst h; exact decTake_append d rest

theorem decBool_enc (b : Bool) (rest : List Nat) :
    decBool (encBool b ++ rest) = some (b, rest) := by
  cases b <;> rfl

theorem decStr_enc {s : List Nat} (h : s.length < 2 ^ 32) (rest : List Nat) :
    decStr (encStr s ++ rest) = some (s, rest) := by
  simp only [decStr, encStr, List.append_assoc, leDec4_enc h]
  exact decTake_of_length s rfl rest

theorem decListN_enc (f : List Nat → Option (α × List Nat)) (g : α → List Nat)
    (l : List α) (rest : List Nat)
    (hpt : ∀ a ∈ l, ∀ r, f (g a ++ r) = some (a, r)) :
    decListN f l.length ((l.map g).flatten ++ rest) = some (l, rest) := by
  induction l with
  | nil => simp [decListN]
  | cons a l ih =>
    simp only [List.map_cons, List.flatten_cons, List.length_cons,
      List.append_assoc, decListN, hpt a (List.mem_cons_self a l)]
    rw [ih (fun x hx r => hpt x (List.mem_cons_of_mem a hx) r)]

theorem decVec_enc (f : List Nat → Option (α × List Nat)) (g : α → List Nat)
    (l : List α) (rest : List Nat) (hlen : l.length < 2 ^ 32)
    (hpt : ∀ a ∈ l, ∀ r, f (g a ++ r) = some (a, r)) :
    decVec f (encVec g l ++ rest) = some (l, rest) := by
  simp only [decVec, encVec, List.append_assoc, leDec4_enc hlen]
  exact decListN_enc f g l rest hpt

theorem decOpt_enc (f : List Nat → Option (α × List Nat)) (g : α → List Nat)
    (o : Option α) (rest : List Nat)
    (hpt : ∀ a ∈ o, ∀ r, f (g a ++ r) = some (a, r)) :
    decOpt f (encOpt g o ++ rest) = some (o, rest) := by
  cases o with
  | none => rfl
  | some a =>
    simp only [encOpt, List.cons_append, decOpt,
      hpt a (Option.mem_def.mpr rfl)]

theorem decUTXO_enc (u : UTXO) (hu : wfUTXO u = true) (rest : List Nat) :
    decUTXO (u.borsh ++ rest) = some (u, rest) := by
  cases u with
  | Pending v i =>
    simp only [wfUTXO, Bool.and_eq_true, decide_eq_true_eq] at hu
    obtain ⟨hv, hi⟩ := hu
    simp only [UTXO.borsh, List.cons_append, List.append_assoc, decUTXO,
      leDec8_enc hv, leDec4_enc hi]
  | Confirmed id spk v th i ca bh cb =>
    simp only [wfUTXO, Bool.and_eq_true, decide_eq_true_eq] at hu
    obtain ⟨⟨⟨⟨⟨⟨hid, hspk⟩, hv⟩, hth⟩, hi⟩, hca⟩, hbh⟩ := hu
    simp only [UTXO.borsh, List.cons_append, List.append_assoc, decUTXO,
      decTake_of_length _ hid, decStr_enc hspk, leDec8_enc hv,
      decTake_of_length _ hth, leDec4_enc hi, leDec4_enc hca,
      leDec4_enc hbh, decBool_enc]

theorem decOptVecUTXO_enc (o : Option (List UTXO))
    (h : wfOptVec wfUTXO o = true) (rest : List Nat) :
    decOpt (decVec decUTXO) (encOpt (encVec UTXO.borsh) o ++ rest) =
      some (o, rest) := by
  refine decOpt_enc _ _ o rest (fun l hl r => ?_)
  cases o with
  | none => simp at hl
  | some l' =>
    simp only [Option.mem_def, Option.some.injEq] at hl
    subst hl
    simp only [wfOptVec, Bool.and_eq_true, decide_eq_true_eq,
      List.all_eq_true] at h
    exact decVec_enc _ _ _ r h.1 (fun a ha r' => decUTXO_enc a (h.2 a ha) r')

theorem decTransaction_enc (t : Transaction) (ht : wfTransaction t = true)
    (rest : List Nat) : decTransaction (t.borsh ++ rest) = some (t, rest) := by
  simp only [wfTransaction, Bool.and_eq_true, decide_eq_true_eq] at ht
  obtain ⟨⟨⟨⟨⟨⟨hh, hs⟩, hr⟩, hts⟩, hsig⟩, hin⟩, hout⟩ := ht
  simp only [Transaction.borsh, List.append_assoc, decTransaction,
    decTake_of_length _ hh, decTake_of_length _ hs, decTake_of_length _ hr,
    leDec4_enc hts, decTake_of_length _ hsig, decOptVecUTXO_enc _ hin,
    decOptVecUTXO_enc _ hout]

theorem NTree.depth_le_borsh_length (t : NTree) :
    t.depth ≤ t.borsh.length := by
  induction t with
  | nil => simp [NTree.depth, NTree.borsh]
  | node h l r ihl ihr =>
    simp only [NTree.depth, NTree.borsh, List.length_cons,
      List.length_append]
    have h1 : max l.depth r.depth ≤ l.borsh.length + r.borsh.length :=
      max_le (ihl.trans (Nat.le_add_right _ _))
        (ihr.trans (Nat.le_add_left _ _))
    omega

theorem decNTree_enc (t : NTree) (hw : wfNTree t = true) :
    ∀ fuel, t.depth ≤ fuel → ∀ rest,
      decNTree fuel (t.borsh ++ rest) = some (t, rest) := by
  induction t with
  | nil => intro fuel _ rest; simp [NTree.borsh, decNTree]
  | node h l r ihl ihr =>
    intro fuel hd rest
    simp only [wfNTree, Bool.and_eq_true, decide_eq_true_eq] at hw
    obtain ⟨⟨hh, hl⟩, hr⟩ := hw
    simp only [NTree.depth] at hd
    cases fuel with
    | zero => omega
    | succ f =>
      have hmax : max l.depth r.depth ≤ f := by omega
      obtain ⟨hld, hrd⟩ := Nat.max_le.mp hmax
      simp only [NTree.borsh, List.cons_append, List.append_assoc,
        List.append_eq, decNTree, decTake_of_length _ hh, ihl hl f hld,
        ihr hr f hrd]

theorem decNTree_self (t : NTree) (hw : wfNTree t = true) (rest : List Nat) :
    decNTree (t.borsh ++ rest).length (t.borsh ++ rest) = some (t, rest) := by
  refine decNTree_enc t hw _ ?_ rest
  calc t.depth ≤ t.borsh.length := NTree.depth_le_borsh_length t
    _ ≤ (t.borsh ++ rest).length := by simp

theorem decBlock_enc (b : Block) (hb : wfBlock b = true) (rest : List Nat) :
    decBlock (b.borsh ++ rest) = some (b, rest) := by
  simp only [wfBlock, Bool.and_eq_true, decide_eq_true_eq,
    List.all_eq_true] at hb
  obtain ⟨⟨⟨⟨⟨⟨⟨⟨hi, hts⟩, htl⟩, hta⟩, hn⟩, hph⟩, hh⟩, hd⟩, hmt⟩ := hb
  simp only [Block.borsh, List.append_assoc, decBlock, leDec8_enc hi,
    leDec16_enc hts,
    decVec_enc _ _ _ _ htl (fun t ht r => decTransaction_enc t (hta t ht) r),
    leDec8_enc hn, decStr_enc hph, decTake_of_length _ hh, leDec4_enc hd,
    decNTree_self _ hmt]

theorem decPriorityEntry_enc (e : PriorityEntry)
    (he : wfPriorityEntry e = true) (rest : List Nat) :
    decPriorityEntry (e.borsh ++ rest) = some (e, rest) := by
  simp only [wfPriorityEntry, Bool.and_eq_true, decide_eq_true_eq] at he
  obtain ⟨⟨⟨hf, hts⟩, hsz⟩, hth⟩ := he
  simp only [PriorityEntry.borsh, List.append_assoc, decPriorityEntry,
    leDec8_enc hf, leDec16_enc hts, leDec8_enc hsz, decTake_of_length _ hth]

theorem decPair_enc (kv : List Nat × Transaction) (hk : kv.1.length = 32)
    (ht : wfTransaction kv.2 = true) (rest : List Nat) :
    decPair (encPair kv ++ rest) = some (kv, rest) := by
  simp only [encPair, List.append_assoc, decPair, decTake_of_length _ hk,
    decTransaction_enc _ ht]

theorem decMemPool_enc (mp : MemPool) (hm : wfMemPool mp = true)
    (rest : List Nat) : decMemPool (mp.borsh ++ rest) = some (mp, rest) := by
  simp only [wfMemPool, Bool.and_eq_true, decide_eq_true_eq,
    List.all_eq_true] at hm
  obtain ⟨⟨⟨⟨hms, htl⟩, hta⟩, hpl⟩, hpa⟩ := hm
  have hpt : ∀ kv ∈ mp.transactions, ∀ r,
      decPair (encPair kv ++ r) = some (kv, r) := by
    intro kv hkv r
    have h := hta kv hkv
    simp only [Bool.and_eq_true, decide_eq_true_eq] at h
    exact decPair_enc kv h.1 h.2 r
  simp only [MemPool.borsh, List.append_assoc, decMemPool, leDec8_enc hms,
    decVec_enc _ _ _ _ htl hpt,
    decVec_enc _ _ _ _ hpl (fun e he r => decPriorityEntry_enc e (hpa e he) r)]

/-! ### Transaction lemmas -/

theorem calculate_hash_spec (C : Crypto) (sk : Nat) (t : Transaction) :
    (Transaction.calculate_hash C sk t).hash_id =
      C.hash (Transaction.calculate_hash C sk t).body ∧
    (Transaction.calculate_hash C sk t).signature =
      C.sign sk (Transaction.calculate_hash C sk t).hash_id := by
  simp [Transaction.calculate_hash, Transaction.body]

theorem confirmedValues_all (l : List UTXO)
    (h : ∀ u ∈ l, u.isConfirmed = true) :
    confirmedValues l = .ok (l.map utxoValue) := by
  induction l with
  | nil => rfl
  | cons u rest ih =>
    cases u with
    | Pending v i => simp [UTXO.isConfirmed] at h
    | Confirmed id spk v th i ca bh cb =>
      simp only [confirmedValues, List.map_cons, utxoValue,
        ih (fun x hx => h x (List.mem_cons_of_mem _ hx))]

theorem pendingValues_all (l : List UTXO)
    (h : ∀ u ∈ l, u.isPending = true) :
    pendingValues l = .ok (l.map utxoValue) := by
  induction l with
  | nil => rfl
  | cons u rest ih =>
    cases u with
    | Confirmed id spk v th i ca bh cb => simp [UTXO.isPending] at h
    | Pending v i =>
      simp only [pendingValues, List.map_cons, utxoValue,
        ih (fun x hx => h x (List.mem_cons_of_mem _ hx))]

theorem unlockAll_all (csig : CsigOracle) (l : List UTXO) (us : List Nat)
    (h : ∀ u ∈ l, UTXO.unlock csig u us = .ok ()) :
    unlockAll csig l us = .ok () := by
  induction l with
  | nil => rfl
  | cons u rest ih =>
    simp only [unlockAll, h u (List.mem_cons_self u rest)]
    exact ih (fun x hx => h x (List.mem_cons_of_mem _ hx))

/-! ### Heap and map lemmas -/

theorem peCmp_eq_gt (a b : PriorityEntry) :
    peCmp a b = .gt ↔
      (a.fee_per_byte < b.fee_per_byte ∨
        (a.fee_per_byte = b.fee_per_byte ∧ b.timestamp < a.timestamp)) := by
  unfold peCmp
  rcases Nat.lt_trichotomy a.fee_per_byte b.fee_per_byte with h | h | h
  · rw [Nat.compare_eq_gt.mpr h]
    exact ⟨fun _ => Or.inl h, fun _ => rfl⟩
  · have hc : compare b.fee_per_byte a.fee_per_byte = .eq := by
      rw [Nat.compare_eq_eq]; omega
    rw [hc]
    show compare a.timestamp b.timestamp = .gt ↔ _
    rw [Nat.compare_eq_gt]
    constructor
    · intro hts; exact Or.inr ⟨h, hts⟩
    · rintro (hlt | ⟨_, hts⟩)
      · omega
      · exact hts
  · rw [Nat.compare_eq_lt.mpr h]
    constructor
    · intro hg; cases hg
    · rintro (hlt | ⟨he, _⟩)
      · exact absurd hlt (by omega)
      · exact absurd he (by omega)

theorem peNotGt_trans {a b c : PriorityEntry} (h1 : peCmp a b ≠ .gt)
    (h2 : peCmp b c ≠ .gt) : peCmp a c ≠ .gt := by
  simp only [ne_eq, peCmp_eq_gt] at h1 h2 ⊢
  omega

theorem peGt_asymm {a b : PriorityEntry} (h : peCmp a b = .gt) :
    peCmp b a ≠ .gt := by
  simp only [ne_eq, peCmp_eq_gt] at h ⊢
  omega

theorem peekAux (l : List PriorityEntry) : ∀ acc : Option PriorityEntry,
    (List.foldl peekStep acc l = none → l = [] ∧ acc = none) ∧
    (∀ m, List.foldl peekStep acc l = some m →
      (m ∈ l ∨ acc = some m) ∧ (∀ e ∈ l, peCmp e m ≠ .gt) ∧
      (∀ a, acc = some a → peCmp a m ≠ .gt)) := by
  induction l with
  | nil =>
    intro acc
    constructor
    · intro h
      simp only [List.foldl_nil] at h
      exact ⟨rfl, h⟩
    · intro m hm
      simp only [List.foldl_nil] at hm
      refine ⟨Or.inr hm, fun x hx => absurd hx (List.not_mem_nil x),
        fun a ha => ?_⟩
      rw [hm] at ha
      injection ha with ha'
      subst ha'
      simp [peCmp_eq_gt]
  | cons e l ih =>
    intro acc
    have H := ih (peekStep acc e)
    constructor
    · intro h
      rw [List.foldl_cons] at h
      have hst := (H.1 h).2
      cases acc with
      | none => exact absurd hst (by simp [peekStep])
      | some b =>
        exfalso
        by_cases hg : peCmp e b = .gt <;> simp [peekStep, hg] at hst
    · intro m hm
      rw [List.foldl_cons] at hm
      obtain ⟨hmem, hmax, hacc⟩ := H.2 m hm
      have hstep : ∀ a, peekStep acc e = some a →
          (a = e ∨ acc = some a) := by
        intro a ha
        cases acc with
        | none => simp [peekStep] at ha; exact Or.inl ha.symm
        | some b =>
          simp only [peekStep] at ha
          by_cases hg : peCmp e b = .gt
          · rw [if_pos hg] at ha; cases ha; exact Or.inl rfl
          · rw [if_neg hg] at ha; cases ha; exact Or.inr rfl
      have he_le : peCmp e m ≠ .gt := by
        cases acc with
        | none => exact hacc e rfl
        | some b =>
          by_cases hg : peCmp e b = .gt
          · exact hacc e (by simp [peekStep, if_pos hg])
          · exact peNotGt_trans hg (hacc b (by simp [peekStep, if_neg hg]))
      refine ⟨?_, ?_, ?_⟩
      · rcases hmem with hml | hse
        · exact Or.inl (List.mem_cons_of_mem _ hml)
        · rcases hstep m hse with rfl | hs
          · exact Or.inl (List.mem_cons_self _ _)
          · exact Or.inr hs
      · intro x hx
        rcases List.mem_cons.mp hx with rfl | hxl
        · exact he_le
        · exact hmax x hxl
      · intro a ha
        cases acc with
        | none => cases ha
        | some b =>
          cases ha
          by_cases hg : peCmp e a = .gt
          · exact peNotGt_trans (peGt_asymm hg)
              (hacc e (by simp [peekStep, if_pos hg]))
          · exact hacc a (by simp [peekStep, if_neg hg])

theorem heapPeek_none {l : List PriorityEntry} (h : heapPeek l = none) :
    l = [] :=
  ((peekAux l none).1 h).1

theorem heapPeek_some {l : List PriorityEntry} {m : PriorityEntry}
    (h : heapPeek l = some m) :
    m ∈ l ∧ ∀ e ∈ l, peCmp e m ≠ .gt := by
  obtain ⟨hmem, hmax, _⟩ := (peekAux l none).2 m h
  exact ⟨hmem.resolve_right (by simp), hmax⟩

theorem filter_erase_eq (l : List PriorityEntry) (m : PriorityEntry) :
    (l.erase m).filter (fun e => e.txn_hash ≠ m.txn_hash) =
      l.filter (fun e => e.txn_hash ≠ m.txn_hash) := by
  induction l with
  | nil => rfl
  | cons a l ih =>
    rw [List.erase_cons]
    by_cases ham : a = m
    · subst ham
      simp [List.filter_cons]
    · rw [if_neg (by simpa using ham)]
      simp only [List.filter_cons, ih]

theorem mapGet_eq_none_iff (l : List (List Nat × Transaction))
    (k : List Nat) : mapGet l k = none ↔ k ∉ l.map Prod.fst := by
  induction l with
  | nil => simp [mapGet]
  | cons kv rest ih =>
    obtain ⟨k', v⟩ := kv
    by_cases hk : k' = k
    · subst hk; simp [mapGet]
    · simp [mapGet, hk, ih, Ne.symm hk]

theorem mapGet_isSome_of_mem {l : List (List Nat × Transaction)}
    {k : List Nat} (h : k ∈ l.map Prod.fst) :
    (mapGet l k).isSome = true := by
  cases hg : mapGet l k with
  | none => exact absurd ((mapGet_eq_none_iff l k).mp hg) (by simpa using h)
  | some v => rfl

theorem mapInsert_of_none (l : List (List Nat × Transaction)) (k : List Nat)
    (v : Transaction) (h : mapGet l k = none) :
    mapInsert l k v = l ++ [(k, v)] := by
  simp [mapInsert, h]

theorem keys_filter (l : List (List Nat × Transaction)) (h0 : List Nat) :
    (l.filter (fun kv => kv.1 ≠ h0)).map Prod.fst =
      (l.map Prod.fst).filter (fun x => x ≠ h0) := by
  induction l with
  | nil => rfl
  | cons kv rest ih =>
    simp only [ne_eq, decide_not] at ih ⊢
    by_cases hk : kv.1 = h0 <;> simp [List.filter_cons, hk, ih]

theorem pqHashes_filter (pq : List PriorityEntry) (h0 : List Nat) :
    (pq.filter (fun e => e.txn_hash ≠ h0)).map PriorityEntry.txn_hash =
      (pq.map PriorityEntry.txn_hash).filter (fun x => x ≠ h0) := by
  induction pq with
  | nil => rfl
  | cons e rest ih =>
    simp only [ne_eq, decide_not] at ih ⊢
    by_cases hk : e.txn_hash = h0 <;> simp [List.filter_cons, hk, ih]

theorem length_filter_ne_of_nodup (l : List (List Nat)) (a : List Nat)
    (hnd : l.Nodup) (ha : a ∈ l) :
    (l.filter (fun x => x ≠ a)).length + 1 = l.length := by
  induction l with
  | nil => cases ha
  | cons b t ih =>
    obtain ⟨hbt, hndt⟩ := List.nodup_cons.mp hnd
    by_cases hba : b = a
    · subst hba
      have ht : (b :: t).filter (fun x => x ≠ b) = t := by
        rw [List.filter_cons, if_neg (by simp)]
        apply List.filter_eq_self.mpr
        intro x hx
        simp only [ne_eq, decide_eq_true_eq]
        exact fun he => hbt (he ▸ hx)
      rw [ht]
      simp
    · have hat : a ∈ t := by
        rcases List.mem_cons.mp ha with h | h
        · exact absurd h.symm hba
        · exact h
      have hcons : (b :: t).filter (fun x => x ≠ a) =
          b :: t.filter (fun x => x ≠ a) := by
        rw [List.filter_cons, if_pos (by simp [hba])]
      rw [hcons]
      have := ih hndt hat
      simp only [List.length_cons]
      omega

/-! ### Mempool branch shapes and invariant preservation -/

theorem add_eq_dup (mp : MemPool) (txn : Transaction) (fee now : Nat)
    (h : (mapGet mp.transactions txn.hash_id).isSome = true) :
    mp.add_transaction txn fee now = (mp, .error .TxnExistInMempool) := by
  simp [MemPool.add_transaction, h]

theorem add_eq_evict (mp : MemPool) (txn : Transaction) (fee now : Nat)
    (victim : PriorityEntry)
    (habs : mapGet mp.transactions txn.hash_id = none)
    (h2 : mp.max_size ≤ mp.transactions.length)
    (hpk : heapPeek mp.priority_queue = some victim)
    (h3 : victim.fee_per_byte < fee / txn.size) :
    mp.add_transaction txn fee now =
      ({ transactions :=
          mapInsert (mp.transactions.filter (fun kv => kv.1 ≠ victim.txn_hash))
            txn.hash_id txn
         priority_queue :=
          (mp.priority_queue.erase victim).filter
              (fun e => e.txn_hash ≠ victim.txn_hash) ++
            [⟨fee / txn.size, now, txn.size, txn.hash_id⟩]
         max_size := mp.max_size }, .ok ()) := by
  simp [MemPool.add_transaction, habs, h2, hpk, h3, heapPop,
    MemPool.remove_transaction]

theorem add_eq_lowfee (mp : MemPool) (txn : Transaction) (fee now : Nat)
    (victim : PriorityEntry)
    (habs : mapGet mp.transactions txn.hash_id = none)
    (h2 : mp.max_size ≤ mp.transactions.length)
    (hpk : heapPeek mp.priority_queue = some victim)
    (h3 : ¬ victim.fee_per_byte < fee / txn.size) :
    mp.add_transaction txn fee now = (mp, .error .TxnLowFee) := by
  simp [MemPool.add_transaction, habs, h2, hpk, h3]

theorem add_eq_empty_heap (mp : MemPool) (txn : Transaction) (fee now : Nat)
    (habs : mapGet mp.transactions txn.hash_id = none)
    (h2 : mp.max_size ≤ mp.transactions.length)
    (hpk : heapPeek mp.priority_queue = none) :
    mp.add_transaction txn fee now =
      ({ transactions := mapInsert mp.transactions txn.hash_id txn
         priority_queue := mp.priority_queue ++
           [⟨fee / txn.size, now, txn.size, txn.hash_id⟩]
         max_size := mp.max_size }, .ok ()) := by
  simp [MemPool.add_transaction, habs, h2, hpk]

theorem add_eq_room (mp : MemPool) (txn : Transaction) (fee now : Nat)
    (habs : mapGet mp.transactions txn.hash_id = none)
    (h2 : ¬ mp.max_size ≤ mp.transactions.length) :
    mp.add_transaction txn fee now =
      ({ transactions := mapInsert mp.transactions txn.hash_id txn
         priority_queue := mp.priority_queue ++
           [⟨fee / txn.size, now, txn.size, txn.hash_id⟩]
         max_size := mp.max_size }, .ok ()) := by
  simp [MemPool.add_transaction, habs, h2]

theorem inv_new (max_size : Nat) : MemPoolInv (MemPool.new max_size) := by
  simp [MemPoolInv, MemPool.new]

theorem inv_remove (mp : MemPool) (h0 : List Nat)
    (hinv : MemPoolInv mp) : MemPoolInv (mp.remove_transaction h0).1 := by
  obtain ⟨hnd, hperm, hbound⟩ := hinv
  refine ⟨?_, ?_, ?_⟩
  · simp only [MemPool.remove_transaction]
    rw [keys_filter]
    exact hnd.filter _
  · simp only [MemPool.remove_transaction]
    rw [keys_filter, pqHashes_filter]
    exact hperm.filter _
  · simp only [MemPool.remove_transaction]
    intro h1
    calc (mp.transactions.filter _).length
        ≤ mp.transactions.length := List.length_filter_le _ _
      _ ≤ mp.max_size := hbound h1

theorem nodup_append_singleton {l : List (List Nat)} {a : List Nat}
    (hnd : l.Nodup) (ha : a ∉ l) : (l ++ [a]).Nodup := by
  rw [List.nodup_append]
  exact ⟨hnd, List.nodup_singleton a,
    fun x hx hx2 => ha ((List.mem_singleton.mp hx2) ▸ hx)⟩

theorem inv_add (mp : MemPool) (txn : Transaction) (fee now : Nat)
    (hinv : MemPoolInv mp) :
    MemPoolInv (mp.add_transaction txn fee now).1 := by
  obtain ⟨hnd, hperm, hbound⟩ := hinv
  by_cases h1 : (mapGet mp.transactions txn.hash_id).isSome
  · rw [add_eq_dup mp txn fee now h1]
    exact ⟨hnd, hperm, hbound⟩
  · have habs : mapGet mp.transactions txn.hash_id = none :=
      Option.not_isSome_iff_eq_none.mp h1
    have hknotin : txn.hash_id ∉ mp.transactions.map Prod.fst :=
      (mapGet_eq_none_iff _ _).mp habs
    by_cases h2 : mp.max_size ≤ mp.transactions.length
    · cases hpk : heapPeek mp.priority_queue with
      | none =>
        have hpq : mp.priority_queue = [] := heapPeek_none hpk
        have hkeys : mp.transactions.map Prod.fst = [] := by
          have h := hperm
          rw [hpq] at h
          simp only [List.map_nil] at h
          exact (h.symm).eq_nil
        have htx : mp.transactions = [] := List.map_eq_nil_iff.mp hkeys
        have hms : mp.max_size = 0 := by
          rw [htx] at h2
          simpa using h2
        rw [add_eq_empty_heap mp txn fee now habs h2 hpk]
        rw [mapInsert_of_none _ _ _ habs]
        refine ⟨?_, ?_, ?_⟩
        · rw [htx]; simp
        · rw [htx, hpq]; simp
        · intro hcon; rw [hms] at hcon; omega
      | some victim =>
        by_cases h3 : victim.fee_per_byte < fee / txn.size
        · obtain ⟨hvmem, hvmax⟩ := heapPeek_some hpk
          have hvh : victim.txn_hash ∈ mp.transactions.map Prod.fst :=
            hperm.subset (List.mem_map_of_mem _ hvmem)
          have habs2 : mapGet
              (mp.transactions.filter (fun kv => kv.1 ≠ victim.txn_hash))
              txn.hash_id = none := by
            rw [mapGet_eq_none_iff, keys_filter]
            exact fun hmem => hknotin (List.mem_of_mem_filter hmem)
          rw [add_eq_evict mp txn fee now victim habs h2 hpk h3]
          rw [mapInsert_of_none _ _ _ habs2, filter_erase_eq]
          have hlf : ((mp.transactions.filter
              (fun kv => kv.1 ≠ victim.txn_hash)).length + 1 =
                mp.transactions.length) := by
            have hk := length_filter_ne_of_nodup
              (mp.transactions.map Prod.fst) victim.txn_hash hnd hvh
            rw [← keys_filter] at hk
            rw [List.length_map, List.length_map] at hk
            exact hk
          refine ⟨?_, ?_, ?_⟩
          · rw [List.map_append, keys_filter]
            exact nodup_append_singleton (hnd.filter _)
              (fun hmem => hknotin (List.mem_of_mem_filter hmem))
          · rw [List.map_append, List.map_append, keys_filter,
              pqHashes_filter]
            exact List.Perm.append (hperm.filter _) (List.Perm.refl _)
          · intro hcon
            have hlen := hbound hcon
            rw [List.length_append]
            simp only [List.length_cons, List.length_nil]
            omega
        · rw [add_eq_lowfee mp txn fee now victim habs h2 hpk h3]
          exact ⟨hnd, hperm, hbound⟩
    · rw [add_eq_room mp txn fee now habs h2]
      rw [mapInsert_of_none _ _ _ habs]
      refine ⟨?_, ?_, ?_⟩
      · rw [List.map_append]
        exact nodup_append_singleton hnd hknotin
      · rw [List.map_append, List.map_append]
        exact List.Perm.append hperm (List.Perm.refl _)
      · intro hcon
        rw [List.length_append]
        simp only [List.length_cons, List.length_nil]
        omega

theorem gtfbLoop_pq_eq (txs : List (List Nat × Transaction)) (maxbs : Nat) :
    ∀ (fuel : Nat) (pq : List PriorityEntry) (bs : Nat)
      (acc : List Transaction),
      (∀ e ∈ pq, e.txn_hash ∈ txs.map Prod.fst) →
      (gtfbLoop txs maxbs fuel pq bs acc).2 = pq := by
  intro fuel
  induction fuel with
  | zero => intro pq bs acc _; rfl
  | succ fuel ih =>
    intro pq bs acc h
    simp only [gtfbLoop]
    cases hpk : heapPeek pq with
    | none => rfl
    | some entry =>
      dsimp only
      by_cases hfit : bs + entry.size < maxbs
      · rw [if_pos hfit]
        have hmem := (heapPeek_some hpk).1
        have hsome := mapGet_isSome_of_mem (h entry hmem)
        cases hget : mapGet txs entry.txn_hash with
        | none => rw [hget] at hsome; simp at hsome
        | some t => exact ih pq _ _ h
      · rw [if_neg hfit]

theorem gtfb_state (mp : MemPool) (fuel maxbs : Nat)
    (h : ∀ e ∈ mp.priority_queue,
      e.txn_hash ∈ mp.transactions.map Prod.fst) :
    (mp.get_transactions_for_block fuel maxbs).1 =
      (gtfbLoop mp.transactions maxbs fuel
        mp.priority_queue 0 []).1.foldl
        (fun acc t => (acc.remove_transaction t.hash_id).1) mp := by
  simp only [MemPool.get_transactions_for_block]
  rw [gtfbLoop_pq_eq mp.transactions maxbs fuel mp.priority_queue 0 [] h]

theorem inv_foldl_remove : ∀ (ts : List Transaction) (m : MemPool),
    MemPoolInv m →
    MemPoolInv (ts.foldl (fun acc t => (acc.remove_transaction t.hash_id).1) m)
  | [], _, hm => hm
  | t :: ts, m, hm =>
    inv_foldl_remove ts _ (inv_remove m t.hash_id hm)

theorem inv_gtfb (mp : MemPool) (fuel maxbs : Nat) (hinv : MemPoolInv mp) :
    MemPoolInv (mp.get_transactions_for_block fuel maxbs).1 := by
  obtain ⟨hnd, hperm, hbound⟩ := hinv
  have hmem : ∀ e ∈ mp.priority_queue,
      e.txn_hash ∈ mp.transactions.map Prod.fst :=
    fun e he => hperm.subset (List.mem_map_of_mem _ he)
  rw [gtfb_state mp fuel maxbs hmem]
  exact inv_foldl_remove _ mp ⟨hnd, hperm, hbound⟩

theorem reach_inv (mp : MemPool) (h : Reach mp) : MemPoolInv mp := by
  induction h with
  | new ms => exact inv_new ms
  | add mp txn fee now _ ih => exact inv_add mp txn fee now ih
  | remove mp h0 _ ih => exact inv_remove mp h0 ih
  | gtfb mp fuel maxbs _ ih => exact inv_gtfb mp fuel maxbs ih

/-! ### Claim theorems -/

/-- C2: constructing a `Block` from an empty transaction list never
returns an `InvalidBlock` error (no such variant exists): the empty
merkle tree has no root, so the first `calculate_hash` inside the mining
loop panics on `root_hash().unwrap()` for every fuel, index, previous
hash, difficulty and clock reading. -/
theorem C2_empty_block_panics (C : Crypto) (fuel index : Nat)
    (previous_hash : List Nat) (difficulty now : Nat) :
    Block.new C fuel index [] previous_hash difficulty now = .panic := by
  simp [Block.new, mineLoop, Block.calculate_hash, Tree.with_hashes,
    Tree.build, rootHash]

/-- C3 counterexample: a block whose stored hash is all zeroes passes
`is_valid` (the prefix 0 meets any target) although its recomputed hash
differs — `is_valid` does not check `hash == calculate_hash()`. -/
theorem C3_counterexample :
    Block.is_valid bC3 = true ∧
      Block.calculate_hash toyCrypto bC3 ≠ some bC3.hash := by decide

/-- C3 (amended): `is_valid` returning true means exactly that the
leading 16 bytes of the stored hash, read big-endian as a u128, are at
most `u128::MAX >> difficulty`; equality with `calculate_hash()` is not
implied. -/
theorem C3_is_valid_target (b : Block) (h : Block.is_valid b = true) :
    hashPrefixU128 b.hash ≤ u128MAX >>> b.difficulty := by
  simpa [Block.is_valid] using h

theorem C3_witness :
    hashPrefixU128 bC3.hash ≤ u128MAX >>> bC3.difficulty :=
  C3_is_valid_target bC3 (by decide)

/-- C10 counterexample: at the wall-clock reading 2^32 ms (≈ Feb 1970;
any reading ≥ 2^32 behaves alike) `Transaction::new` stores timestamp 0,
not the full value — the field is a `u32` and the source truncates with
`as u32`. -/
theorem C10_counterexample :
    (Transaction.new toyCrypto 0 (dig 9) (2 ^ 32)).timestamp = 0 ∧
      (0 : Nat) ≠ 2 ^ 32 := by decide

/-- C10 (amended): `Transaction::new` stores the wall-clock millisecond
reading truncated to a `u32`, i.e. reduced mod 2^32. -/
theorem C10_timestamp_truncated (C : Crypto) (sk : Nat)
    (receiver : List Nat) (now : Nat) :
    (Transaction.new C sk receiver now).timestamp = now % 2 ^ 32 := rfl

/-- C9: decoding the canonical borsh encoding returns the original value
for each core entity — UTXO, Transaction, Block and MemPool — whenever
the value is the image of an actual Rust value (fields within their
integer widths, fixed-size arrays of the right length). -/
theorem C9_roundtrip :
    (∀ u : UTXO, wfUTXO u = true →
      tryFromSlice decUTXO u.borsh = some u) ∧
    (∀ t : Transaction, wfTransaction t = true →
      tryFromSlice decTransaction t.borsh = some t) ∧
    (∀ b : Block, wfBlock b = true →
      tryFromSlice decBlock b.borsh = some b) ∧
    (∀ mp : MemPool, wfMemPool mp = true →
      tryFromSlice decMemPool mp.borsh = some mp) := by
  refine ⟨fun u hu => ?_, fun t ht => ?_, fun b hb => ?_, fun mp hm => ?_⟩
  · have h := decUTXO_enc u hu []
    rw [List.append_nil] at h
    simp [tryFromSlice, h]
  · have h := decTransaction_enc t ht []
    rw [List.append_nil] at h
    simp [tryFromSlice, h]
  · have h := decBlock_enc b hb []
    rw [List.append_nil] at h
    simp [tryFromSlice, h]
  · have h := decMemPool_enc mp hm []
    rw [List.append_nil] at h
    simp [tryFromSlice, h]

theorem C9_witness :
    tryFromSlice decUTXO uC9.borsh = some uC9 ∧
    tryFromSlice decTransaction tC9.borsh = some tC9 ∧
    tryFromSlice decBlock bC9.borsh = some bC9 ∧
    tryFromSlice decMemPool mpC9.borsh = some mpC9 :=
  ⟨C9_roundtrip.1 uC9 (by decide), C9_roundtrip.2.1 tC9 (by decide),
    C9_roundtrip.2.2.1 bC9 (by decide),
    C9_roundtrip.2.2.2 mpC9 (by decide)⟩

/-- C7: `unlock` fails with `PendingUTXO` on every Pending UTXO; on a
Confirmed UTXO the unlocking script's tokens enter the stack purely as
data (the evaluation is determined by them as an initial stack, whatever
they spell), evaluation succeeds iff the final stack is exactly
`["true"]`, and `OP_CHECKSIG` on a stack with fewer than three items
fails. -/
theorem C7_unlock_spec :
    (∀ (csig : CsigOracle) (us : List Nat) (v i : Nat),
      UTXO.unlock csig (.Pending v i) us = .error .PendingUTXO) ∧
    (∀ (csig : CsigOracle) (id spk : List Nat) (v : Nat) (th : List Nat)
      (i ca bh : Nat) (cb : Bool) (us : List Nat),
      UTXO.unlock csig (.Confirmed id spk v th i ca bh cb) us = .ok () ↔
        processTokens csig (splitWS spk) (splitWS us).reverse =
          .ok [trueTok]) ∧
    (∀ (csig : CsigOracle) (rest : List (List Nat))
      (st : List (List Nat)), st.length < 3 →
      processTokens csig (opCHECKSIG :: rest) st =
        .error .InvalidUnlockingScript) := by
  refine ⟨fun csig us v i => rfl, ?_, ?_⟩
  · intro csig id spk v th i ca bh cb us
    rcases h : processTokens csig (splitWS spk) (splitWS us).reverse
      with e | st
    · simp [UTXO.unlock, h]
    · rcases st with _ | ⟨x, _ | ⟨y, tl⟩⟩
      · simp [UTXO.unlock, h]
      · by_cases hx : x = trueTok
        · subst hx; simp [UTXO.unlock, h]
        · simp [UTXO.unlock, h, hx]
      · simp [UTXO.unlock, h]
  · intro csig rest st h
    rcases st with _ | ⟨a, _ | ⟨b, _ | ⟨c, tl⟩⟩⟩
    · simp [processTokens]
    · simp [processTokens]
    · simp [processTokens]
    · simp at h; omega

theorem C7_witness :
    UTXO.unlock csigNone (.Pending 1 0) [] = .error .PendingUTXO ∧
    (UTXO.unlock csigNone (.Confirmed (dig 2) trueTok 1 (dig 3) 0 0 0 false)
        [] = .ok () ↔
      processTokens csigNone (splitWS trueTok) (splitWS []).reverse =
        .ok [trueTok]) ∧
    processTokens csigNone [opCHECKSIG] [] =
      .error .InvalidUnlockingScript :=
  ⟨C7_unlock_spec.1 csigNone [] 1 0,
    C7_unlock_spec.2.1 csigNone (dig 2) trueTok 1 (dig 3) 0 0 0 false [],
    C7_unlock_spec.2.2 csigNone [] [] (by decide)⟩

/-- C5 counterexample: `add_inputs` re-signs with the key passed to the
call; re-signing `tC5` (created by key 0) with key 1 succeeds yet leaves
a signature that does not verify under `sender`. -/
theorem C5_counterexample :
    Transaction.add_inputs toyCrypto tC5 [uC5] 1 = .ok t1C5 ∧
      toyCrypto.verify t1C5.sender t1C5.hash_id t1C5.signature = false := by
  decide

/-- C5 (amended): `Transaction::new` and every successful
`add_inputs`/`add_outputs` call re-derive `hash_id` as the hash of
`sender ‖ receiver ‖ timestamp_le ‖ Σ input.to_bytes() ‖ Σ output.to_bytes()`
and `signature` as the signature of `hash_id` by the signing key passed
to that call (which coincides with `sender`'s key only when the caller
passes the creator's key). -/
theorem C5_rederive (C : Crypto) (sk sk' : Nat) (receiver : List Nat)
    (now : Nat) (t t' : Transaction) (l : List UTXO) :
    ((Transaction.new C sk receiver now).hash_id =
        C.hash (Transaction.new C sk receiver now).body ∧
      (Transaction.new C sk receiver now).signature =
        C.sign sk (Transaction.new C sk receiver now).hash_id) ∧
    (Transaction.add_inputs C t l sk' = .ok t' →
      t'.hash_id = C.hash t'.body ∧
        t'.signature = C.sign sk' t'.hash_id) ∧
    (Transaction.add_outputs C t l sk' = .ok t' →
      t'.hash_id = C.hash t'.body ∧
        t'.signature = C.sign sk' t'.hash_id) := by
  refine ⟨calculate_hash_spec C sk _, fun h => ?_, fun h => ?_⟩
  · simp only [Transaction.add_inputs] at h
    split at h
    · exact absurd h (by simp)
    · split at h
      · exact absurd h (by simp)
      · rw [Except.ok.injEq] at h
        exact h ▸ calculate_hash_spec C sk' _
  · simp only [Transaction.add_outputs] at h
    split at h
    · exact absurd h (by simp)
    · split at h
      · exact absurd h (by simp)
      · rw [Except.ok.injEq] at h
        exact h ▸ calculate_hash_spec C sk' _

theorem C5_witness :
    t1C5.hash_id = toyCrypto.hash t1C5.body ∧
      t1C5.signature = toyCrypto.sign 1 t1C5.hash_id :=
  (C5_rederive toyCrypto 0 1 (dig 9) 0 tC5 t1C5 [uC5]).2.1 (by decide)

/-- C6: on a transaction whose inputs are all Confirmed and outputs all
Pending, with a parsing sender key, an unlocking script that unlocks
every input and a verifying signature, `verify` fails with
`InsufficientFunds` exactly when the (u64) output total exceeds the
input total, and otherwise returns
`(input_total, output_total, input_total − output_total)`. -/
theorem C6_verify (C : Crypto) (csig : CsigOracle) (t : Transaction)
    (us : List Nat) (ins outs : List UTXO)
    (hin : t.inputs = some ins) (hout : t.outputs = some outs)
    (hconf : ∀ u ∈ ins, u.isConfirmed = true)
    (hpend : ∀ u ∈ outs, u.isPending = true)
    (hpk : C.parseVk t.sender = true)
    (hunlock : ∀ u ∈ ins, UTXO.unlock csig u us = .ok ())
    (hsig : C.verify t.sender t.hash_id t.signature = true) :
    (u64sum (outs.map utxoValue) > u64sum (ins.map utxoValue) →
      Transaction.verify C csig t us = .error .InsufficientFunds) ∧
    (¬ u64sum (outs.map utxoValue) > u64sum (ins.map utxoValue) →
      Transaction.verify C csig t us =
        .ok (u64sum (ins.map utxoValue), u64sum (outs.map utxoValue),
          u64sum (ins.map utxoValue) - u64sum (outs.map utxoValue))) := by
  constructor <;> intro hcmp <;>
    simp [Transaction.verify, hpk, hin, hout,
      confirmedValues_all ins hconf, pendingValues_all outs hpend,
      unlockAll_all csig ins us hunlock, hsig, hcmp]

theorem C6_witness :
    Transaction.verify okCrypto csigNone tC6 trueTok =
      .ok (1000000000, 999999990, 10) :=
  (C6_verify okCrypto csigNone tC6 trueTok
    [.Confirmed (dig 2) [] 1000000000 (dig 3) 0 0 0 false]
    [.Pending 999999990 0] rfl rfl (by decide) (by decide) rfl
    (by decide) rfl).2 (by decide)

/-- C1: evaluation of `get_transactions_for_block` at concrete mempool
states. The selection loop never pops an entry it accepts, so the same
peeked transaction is appended repeatedly until the size bound triggers
(`mpC1` with `max_block_size = 3` yields the same transaction twice, at
any sufficient fuel); moreover the heap's `Ord` is inverted for
eviction, so `peek` surfaces the lowest fee_per_byte first (`mpC1b`
yields the fee-2 transaction, not the fee-10 one). -/
theorem C1_duplicate_selection :
    (mpC1.get_transactions_for_block 5 3).2 = [mkTxn 7, mkTxn 7] ∧
    (mpC1.get_transactions_for_block 500 3).2 = [mkTxn 7, mkTxn 7] ∧
    (mpC1.get_transactions_for_block 5 3).2.count (mkTxn 7) = 2 ∧
    (mpC1b.get_transactions_for_block 5 11).2 = [mkTxn 8] := by decide

/-- C4: on a mempool at exactly `max_size ≥ 1` transactions (with its
two structures in sync) and an incoming transaction whose hash is
absent, `add_transaction` peeks the lowest-priority entry — minimal
fee_per_byte, and maximal (newest) timestamp among entries of that fee —
succeeds exactly when the incoming `fee / size` strictly exceeds that
entry's fee_per_byte, in which case the victim is removed from both
structures and the new transaction inserted into both; otherwise it
fails with `TxnLowFee` and the mempool is unchanged. -/
theorem C4_admission (mp : MemPool) (txn : Transaction) (fee now : Nat)
    (hperm : (mp.priority_queue.map PriorityEntry.txn_hash).Perm
      (mp.transactions.map Prod.fst))
    (hfull : mp.transactions.length = mp.max_size)
    (hpos : 1 ≤ mp.max_size)
    (habsent : mapGet mp.transactions txn.hash_id = none) :
    ∃ victim,
      heapPeek mp.priority_queue = some victim ∧
      (∀ e ∈ mp.priority_queue,
        victim.fee_per_byte ≤ e.fee_per_byte) ∧
      (∀ e ∈ mp.priority_queue,
        e.fee_per_byte = victim.fee_per_byte →
          e.timestamp ≤ victim.timestamp) ∧
      (if victim.fee_per_byte < fee / txn.size then
        (mp.add_transaction txn fee now).2 = .ok () ∧
        (mp.add_transaction txn fee now).1.transactions =
          mp.transactions.filter (fun kv => kv.1 ≠ victim.txn_hash) ++
            [(txn.hash_id, txn)] ∧
        (mp.add_transaction txn fee now).1.priority_queue =
          mp.priority_queue.filter
              (fun e => e.txn_hash ≠ victim.txn_hash) ++
            [⟨fee / txn.size, now, txn.size, txn.hash_id⟩]
      else mp.add_transaction txn fee now = (mp, .error .TxnLowFee)) := by
  have hpqne : mp.priority_queue ≠ [] := by
    intro h0
    have hl := hperm.length_eq
    rw [h0] at hl
    simp only [List.map_nil, List.length_nil, List.length_map] at hl
    omega
  obtain ⟨victim, hpk⟩ : ∃ v, heapPeek mp.priority_queue = some v := by
    cases hp : heapPeek mp.priority_queue with
    | none => exact absurd (heapPeek_none hp) hpqne
    | some v => exact ⟨v, rfl⟩
  obtain ⟨hvmem, hvmax⟩ := heapPeek_some hpk
  have h2 : mp.max_size ≤ mp.transactions.length := hfull ▸ le_refl _
  refine ⟨victim, hpk, ?_, ?_, ?_⟩
  · intro e he
    have := hvmax e he
    simp only [ne_eq, peCmp_eq_gt] at this
    omega
  · intro e he hfe
    have := hvmax e he
    simp only [ne_eq, peCmp_eq_gt] at this
    omega
  · by_cases h3 : victim.fee_per_byte < fee / txn.size
    · rw [if_pos h3]
      have habs2 : mapGet
          (mp.transactions.filter (fun kv => kv.1 ≠ victim.txn_hash))
          txn.hash_id = none := by
        rw [mapGet_eq_none_iff, keys_filter]
        intro hmem
        exact (mapGet_eq_none_iff _ _).mp habsent
          (List.mem_of_mem_filter hmem)
      rw [add_eq_evict mp txn fee now victim habsent h2 hpk h3]
      rw [mapInsert_of_none _ _ _ habs2, filter_erase_eq]
      exact ⟨rfl, rfl, rfl⟩
    · rw [if_neg h3]
      exact add_eq_lowfee mp txn fee now victim habsent h2 hpk h3

theorem C4_witness :
    ∃ victim,
      heapPeek mpC4.priority_queue = some victim ∧
      (∀ e ∈ mpC4.priority_queue,
        victim.fee_per_byte ≤ e.fee_per_byte) ∧
      (∀ e ∈ mpC4.priority_queue,
        e.fee_per_byte = victim.fee_per_byte →
          e.timestamp ≤ victim.timestamp) ∧
      (if victim.fee_per_byte < 3838 / (mkTxn 6).size then
        (mpC4.add_transaction (mkTxn 6) 3838 7).2 = .ok () ∧
        (mpC4.add_transaction (mkTxn 6) 3838 7).1.transactions =
          mpC4.transactions.filter
              (fun kv => kv.1 ≠ victim.txn_hash) ++
            [((mkTxn 6).hash_id, mkTxn 6)] ∧
        (mpC4.add_transaction (mkTxn 6) 3838 7).1.priority_queue =
          mpC4.priority_queue.filter
              (fun e => e.txn_hash ≠ victim.txn_hash) ++
            [⟨3838 / (mkTxn 6).size, 7, (mkTxn 6).size,
              (mkTxn 6).hash_id⟩]
      else mpC4.add_transaction (mkTxn 6) 3838 7 =
        (mpC4, .error .TxnLowFee)) :=
  C4_admission mpC4 (mkTxn 6) 3838 7 (by decide) (by decide) (by decide)
    (by decide)

/-- C8 counterexample: with `max_size = 0` the very first
`add_transaction` into the empty mempool succeeds (the empty heap has
nothing to peek), leaving `|by_hash| = 1 > 0 = max_size`. -/
theorem C8_counterexample :
    ((MemPool.new 0).add_transaction (mkTxn 4) 1 0).2 = .ok () ∧
    ((MemPool.new 0).add_transaction
      (mkTxn 4) 1 0).1.transactions.length = 1 ∧
    (MemPool.new 0).max_size = 0 := by decide

/-- C8 (amended): in every state reachable from `MemPool::new(max_size)`
by any sequence of `add_transaction`, `remove_transaction` and
`get_transactions_for_block`, the number of transactions in `by_hash`
equals the number of distinct txn_hashes in `by_priority`; and whenever
`max_size ≥ 1` it is also at most `max_size` (for `max_size = 0` the
bound fails on the first admission). -/
theorem C8_invariant (mp : MemPool) (h : Reach mp) :
    (1 ≤ mp.max_size → mp.transactions.length ≤ mp.max_size) ∧
    (mp.priority_queue.map PriorityEntry.txn_hash).dedup.length =
      mp.transactions.length := by
  obtain ⟨hnd, hperm, hbound⟩ := reach_inv mp h
  refine ⟨hbound, ?_⟩
  have hnd2 : (mp.priority_queue.map PriorityEntry.txn_hash).Nodup :=
    hperm.nodup_iff.mpr hnd
  rw [hnd2.dedup, hperm.length_eq, List.length_map]

theorem C8_witness :
    (1 ≤ (((MemPool.new 1).add_transaction (mkTxn 4) 5 0).1).max_size →
      (((MemPool.new 1).add_transaction
        (mkTxn 4) 5 0).1).transactions.length ≤
        (((MemPool.new 1).add_transaction (mkTxn 4) 5 0).1).max_size) ∧
    ((((MemPool.new 1).add_transaction
      (mkTxn 4) 5 0).1).priority_queue.map
        PriorityEntry.txn_hash).dedup.length =
      (((MemPool.new 1).add_transaction
        (mkTxn 4) 5 0).1).transactions.length :=
  C8_invariant _ (Reach.add _ _ _ _ (Reach.new 1))

end Aurelius
